import Mathlib

/-!
Verification development for the diagram-analyzer core: the response
normalizer (`_parse_response`), the error-response boundary
(`analyze_diagram` / `_create_error_response`), the aggregator
(`get_resources_by_category`, `get_resource_statistics`) and the tabular
exporter (`display_resources_table`).  Python dictionaries parsed from
JSON are modelled by the `Json` inductive below; machine-level concerns
(Unicode whitespace beyond ASCII, surrogate pairs, float values) do not
affect any of the stated properties and are modelled at the fidelity the
properties need: numbers keep their source lexeme, whitespace classes are
the ASCII ones.
-/

/-- Whitespace as matched by Python regex class backslash-s and by
`str.strip()` for the ASCII range: space, tab, newline, carriage return,
vertical tab, form feed. -/
def isPySpace (c : Char) : Bool :=
  c = ' ' || c = '\t' || c = '\n' || c = '\r' || c = '\x0b' || c = '\x0c'

/-- Whitespace skipped by the JSON grammar (`json.loads`): space, tab,
newline, carriage return. -/
def isJsonWs (c : Char) : Bool :=
  c = ' ' || c = '\t' || c = '\n' || c = '\r'

/-- Python `str.strip()`: drop leading and trailing whitespace. -/
def pyStrip (cs : List Char) : List Char :=
  ((cs.dropWhile isPySpace).reverse.dropWhile isPySpace).reverse

/-- The literal characters of the fence opener with language tag. -/
def fenceJson : List Char := ['`', '`', '`', 'j', 's', 'o', 'n']

/-- The literal characters of a bare fence. -/
def fenceTicks : List Char := ['`', '`', '`']

/-- Drop a literal from the front of a character list, or fail. -/
def dropLit : List Char → List Char → Option (List Char)
  | cs, [] => some cs
  | [], _ :: _ => none
  | c :: cs, d :: ds => if c = d then dropLit cs ds else none

/-- One attempted regex match at the current position for the pattern
used on line 145 of `diagram_analyzer.py`: first alternative is the
fence opener with tag followed by greedy whitespace, second alternative
is greedy whitespace followed by a bare fence.  Returns the remainder of
the input after the match, or `none` when neither alternative matches
here.  Backtracking vanishes because a backtick is not whitespace, so
the whitespace run before a bare fence is exactly the maximal run. -/
def fenceMatch (cs : List Char) : Option (List Char) :=
  match dropLit cs fenceJson with
  | some rest => some (rest.dropWhile isPySpace)
  | none =>
    match dropLit (cs.dropWhile isPySpace) fenceTicks with
    | some rest => some rest
    | none => none

/-- Left-to-right scan of `re.sub` with the fence pattern: at each
position, remove a match if one starts here, otherwise keep the
character.  Fuel is an upper bound on the number of steps; every step
consumes at least one character, so the input length is enough. -/
def subFencesAux : Nat → List Char → List Char
  | 0, cs => cs
  | _ + 1, [] => []
  | fuel + 1, c :: cs =>
    match fenceMatch (c :: cs) with
    | some rest => subFencesAux fuel rest
    | none => c :: subFencesAux fuel cs

/-- The fence-stripping substitution applied to a whole character list. -/
def subFences (cs : List Char) : List Char := subFencesAux cs.length cs

/-- Lines 145 and 146 of `diagram_analyzer.py`: strip fence markers, then
strip surrounding whitespace. -/
def cleanedText (s : String) : String := String.mk (pyStrip (subFences s.data))

/-- Python values produced by `json.loads`: the shallow model of the data
the analyzer manipulates.  Numbers keep their source lexeme, which is
enough because no stated property computes with numeric values. -/
inductive Json where
  | null : Json
  | bool (b : Bool) : Json
  | num (lexeme : String) : Json
  | str (s : String) : Json
  | arr (elems : List Json) : Json
  | obj (members : List (String × Json)) : Json
  deriving Repr

mutual

/-- Boolean equality on `Json`, by mutual structural recursion. -/
def Json.beq : Json → Json → Bool
  | .null, .null => true
  | .bool a, .bool b => a == b
  | .num a, .num b => a == b
  | .str a, .str b => a == b
  | .arr xs, .arr ys => Json.beqList xs ys
  | .obj xs, .obj ys => Json.beqMembers xs ys
  | _, _ => false

/-- Boolean equality on lists of `Json`. -/
def Json.beqList : List Json → List Json → Bool
  | [], [] => true
  | x :: xs, y :: ys => Json.beq x y && Json.beqList xs ys
  | _, _ => false

/-- Boolean equality on member lists. -/
def Json.beqMembers : List (String × Json) → List (String × Json) → Bool
  | [], [] => true
  | (k1, v1) :: xs, (k2, v2) :: ys => k1 == k2 && Json.beq v1 v2 && Json.beqMembers xs ys
  | _, _ => false

end

mutual

theorem Json.beq_iff : ∀ a b, Json.beq a b = true ↔ a = b
  | .null, .null => by simp [Json.beq]
  | .bool _, .bool _ => by simp [Json.beq]
  | .num _, .num _ => by simp [Json.beq]
  | .str _, .str _ => by simp [Json.beq]
  | .arr xs, .arr ys => by
      simp only [Json.beq, Json.beqList_iff xs ys]
      constructor
      · intro h; rw [h]
      · intro h; cases h; rfl
  | .obj xs, .obj ys => by
      simp only [Json.beq, Json.beqMembers_iff xs ys]
      constructor
      · intro h; rw [h]
      · intro h; cases h; rfl
  | .null, .bool _ => by simp [Json.beq]
  | .null, .num _ => by simp [Json.beq]
  | .null, .str _ => by simp [Json.beq]
  | .null, .arr _ => by simp [Json.beq]
  | .null, .obj _ => by simp [Json.beq]
  | .bool _, .null => by simp [Json.beq]
  | .bool _, .num _ => by simp [Json.beq]
  | .bool _, .str _ => by simp [Json.beq]
  | .bool _, .arr _ => by simp [Json.beq]
  | .bool _, .obj _ => by simp [Json.beq]
  | .num _, .null => by simp [Json.beq]
  | .num _, .bool _ => by simp [Json.beq]
  | .num _, .str _ => by simp [Json.beq]
  | .num _, .arr _ => by simp [Json.beq]
  | .num _, .obj _ => by simp [Json.beq]
  | .str _, .null => by simp [Json.beq]
  | .str _, .bool _ => by simp [Json.beq]
  | .str _, .num _ => by simp [Json.beq]
  | .str _, .arr _ => by simp [Json.beq]
  | .str _, .obj _ => by simp [Json.beq]
  | .arr _, .null => by simp [Json.beq]
  | .arr _, .bool _ => by simp [Json.beq]
  | .arr _, .num _ => by simp [Json.beq]
  | .arr _, .str _ => by simp [Json.beq]
  | .arr _, .obj _ => by simp [Json.beq]
  | .obj _, .null => by simp [Json.beq]
  | .obj _, .bool _ => by simp [Json.beq]
  | .obj _, .num _ => by simp [Json.beq]
  | .obj _, .str _ => by simp [Json.beq]
  | .obj _, .arr _ => by simp [Json.beq]

theorem Json.beqList_iff : ∀ xs ys, Json.beqList xs ys = true ↔ xs = ys
  | [], [] => by simp [Json.beqList]
  | x :: xs, y :: ys => by
      simp [Json.beqList, Json.beq_iff x y, Json.beqList_iff xs ys]
  | [], _ :: _ => by simp [Json.beqList]
  | _ :: _, [] => by simp [Json.beqList]

theorem Json.beqMembers_iff : ∀ xs ys, Json.beqMembers xs ys = true ↔ xs = ys
  | [], [] => by simp [Json.beqMembers]
  | (_, v1) :: xs, (_, v2) :: ys => by
      simp [Json.beqMembers, Json.beq_iff v1 v2, Json.beqMembers_iff xs ys]
  | [], _ :: _ => by simp [Json.beqMembers]
  | _ :: _, [] => by simp [Json.beqMembers]

end

instance : DecidableEq Json := fun a b => decidable_of_iff _ (Json.beq_iff a b)

/-- First-match lookup in a member list; Python dictionaries built by the
parser have unique keys, so first match is the dictionary lookup. -/
def lookupMember : List (String × Json) → String → Option Json
  | [], _ => none
  | (k1, v1) :: rest, k => if k1 = k then some v1 else lookupMember rest k

/-- Python dictionary item assignment: replace the value at an existing
key in place, otherwise append the new pair at the end (insertion
order). -/
def setMember : List (String × Json) → String → Json → List (String × Json)
  | [], k, v => [(k, v)]
  | (k1, v1) :: rest, k, v =>
    if k1 = k then (k1, v) :: rest else (k1, v1) :: setMember rest k v

/-- Python `d.get(key, default)` on a parsed value; the analyzer only
applies it to dictionaries, which is the case the theorems use. -/
def getD (j : Json) (k : String) (d : Json) : Json :=
  match j with
  | .obj kvs => (lookupMember kvs k).getD d
  | _ => d

/-- Key lookup without a default: `some` exactly when the member exists. -/
def lookupKey (j : Json) (k : String) : Option Json :=
  match j with
  | .obj kvs => lookupMember kvs k
  | _ => none

/-- View a value as the list the analyzer iterates over; the analyzer
only reaches this with lists. -/
def asArr : Json → List Json
  | .arr xs => xs
  | _ => []

/-- Substring test, modelling the Python `in` operator on strings. -/
def listStartsWith : List Char → List Char → Bool
  | _, [] => true
  | [], _ :: _ => false
  | c :: cs, d :: ds => c == d && listStartsWith cs ds

/-- Does `needle` occur as a contiguous substring of the second list? -/
def listContainsSub (needle : List Char) : List Char → Bool
  | [] => needle.isEmpty
  | c :: cs => listStartsWith (c :: cs) needle || listContainsSub needle cs

/-- Python `key in value` for a parsed JSON value: key membership for a
dictionary, element equality for a list, substring for a string, and a
`TypeError` for the non-iterable scalars. -/
def jsonContains (j : Json) (k : String) : Except String Bool :=
  match j with
  | .obj kvs => .ok (kvs.any (fun kv => kv.1 == k))
  | .arr xs => .ok (xs.any (fun x => x == Json.str k))
  | .str s => .ok (listContainsSub k.data s.data)
  | .null => .error "argument of type NoneType is not iterable"
  | .bool _ => .error "argument of type bool is not iterable"
  | .num _ => .error "argument of type number is not iterable"

/-- Python `value[key] = v` with a string key: succeeds on a dictionary,
raises a `TypeError` otherwise. -/
def setItem (j : Json) (k : String) (v : Json) : Except String Json :=
  match j with
  | .obj kvs => .ok (.obj (setMember kvs k v))
  | .arr _ => .error "list indices must be integers or slices, not str"
  | .str _ => .error "str object does not support item assignment"
  | _ => .error "object does not support item assignment"

/-- Skip JSON whitespace. -/
def jsonSkipWs (cs : List Char) : List Char := cs.dropWhile isJsonWs

/-- Hexadecimal digit value. -/
def hexVal (c : Char) : Option Nat :=
  if '0' ≤ c ∧ c ≤ '9' then some (c.toNat - '0'.toNat)
  else if 'a' ≤ c ∧ c ≤ 'f' then some (c.toNat - 'a'.toNat + 10)
  else if 'A' ≤ c ∧ c ≤ 'F' then some (c.toNat - 'A'.toNat + 10)
  else none

/-- Single-character escapes of the JSON grammar. -/
def escChar : Char → Option Char
  | '"' => some '"'
  | '\\' => some '\\'
  | '/' => some '/'
  | 'b' => some '\x08'
  | 'f' => some '\x0c'
  | 'n' => some '\n'
  | 'r' => some '\r'
  | 't' => some '\t'
  | _ => none

/-- Body of a JSON string after the opening quote: accumulate characters
until the closing quote, decoding escapes, rejecting raw control
characters as `json.loads` does in strict mode. -/
def parseStringBody : List Char → List Char → Except String (String × List Char)
  | [], _ => .error "Unterminated string"
  | '"' :: rest, acc => .ok (String.mk acc.reverse, rest)
  | '\\' :: rest, acc =>
    match rest with
    | [] => .error "Unterminated string"
    | 'u' :: h1 :: h2 :: h3 :: h4 :: rest2 =>
      match hexVal h1, hexVal h2, hexVal h3, hexVal h4 with
      | some a, some b, some c, some d =>
        parseStringBody rest2 (Char.ofNat (4096 * a + 256 * b + 16 * c + d) :: acc)
      | _, _, _, _ => .error "Invalid hex escape"
    | 'u' :: _ => .error "Invalid hex escape"
    | e :: rest2 =>
      match escChar e with
      | some c => parseStringBody rest2 (c :: acc)
      | none => .error "Invalid escape"
  | c :: rest, acc =>
    if c.toNat < 32 then .error "Invalid control character"
    else parseStringBody rest (c :: acc)

/-- Integer part of a JSON number: a single zero, or a nonzero digit
followed by digits. -/
def intLex : List Char → Option (List Char × List Char)
  | '0' :: rest => some (['0'], rest)
  | c :: rest =>
    if c.isDigit then some (c :: rest.takeWhile Char.isDigit, rest.dropWhile Char.isDigit)
    else none
  | [] => none

/-- Fraction part: a dot with at least one digit, else nothing consumed,
mirroring the maximal-munch number regular expression of `json`. -/
def fracLex : List Char → List Char × List Char
  | '.' :: rest =>
    match rest.takeWhile Char.isDigit with
    | [] => ([], '.' :: rest)
    | ds => ('.' :: ds, rest.dropWhile Char.isDigit)
  | cs => ([], cs)

/-- Digits of an exponent, at least one. -/
def expDigits (cs : List Char) : Option (List Char × List Char) :=
  match cs.takeWhile Char.isDigit with
  | [] => none
  | ds => some (ds, cs.dropWhile Char.isDigit)

/-- Exponent part: e or E, optional sign, at least one digit, else
nothing consumed. -/
def expLex : List Char → List Char × List Char
  | c :: rest =>
    if c = 'e' || c = 'E' then
      match rest with
      | s :: rest2 =>
        if s = '+' || s = '-' then
          match expDigits rest2 with
          | some (ds, r) => (c :: s :: ds, r)
          | none => ([], c :: s :: rest2)
        else
          match expDigits rest with
          | some (ds, r) => (c :: ds, r)
          | none => ([], c :: rest)
      | [] => ([], [c])
    else ([], c :: rest)
  | [] => ([], [])

/-- Maximal-munch lexeme of a JSON number, kept as text. -/
def numberLexeme (cs : List Char) : Option (List Char × List Char) :=
  let p := match cs with
    | '-' :: rest => ((['-'] : List Char), rest)
    | _ => (([] : List Char), cs)
  match intLex p.2 with
  | none => none
  | some (ip, cs2) =>
    let f := fracLex cs2
    let e := expLex f.2
    some (p.1 ++ ip ++ f.1 ++ e.1, e.2)

/-- Remaining elements of a nonempty JSON array, given a parser for one
value; fuel bounds the number of elements. -/
def parseListRest (pv : List Char → Except String (Json × List Char)) :
    Nat → List Char → List Json → Except String (Json × List Char)
  | 0, _, _ => .error "Expecting value"
  | fuel + 1, cs, acc =>
    match pv cs with
    | .error e => .error e
    | .ok (v, rest) =>
      match jsonSkipWs rest with
      | ']' :: rest2 => .ok (.arr (acc ++ [v]), rest2)
      | ',' :: rest2 => parseListRest pv fuel rest2 (acc ++ [v])
      | _ => .error "Expecting comma delimiter"

/-- Members of a nonempty JSON object, given a parser for one value;
duplicate keys overwrite in place as a Python dictionary does. -/
def parseMembersRest (pv : List Char → Except String (Json × List Char)) :
    Nat → List Char → List (String × Json) → Except String (Json × List Char)
  | 0, _, _ => .error "Expecting value"
  | fuel + 1, cs, acc =>
    match jsonSkipWs cs with
    | '"' :: rest =>
      match parseStringBody rest [] with
      | .error e => .error e
      | .ok (k, rest2) =>
        match jsonSkipWs rest2 with
        | ':' :: rest3 =>
          match pv rest3 with
          | .error e => .error e
          | .ok (v, rest4) =>
            match jsonSkipWs rest4 with
            | '}' :: rest5 => .ok (.obj (setMember acc k v), rest5)
            | ',' :: rest5 => parseMembersRest pv fuel rest5 (setMember acc k v)
            | _ => .error "Expecting comma delimiter"
        | _ => .error "Expecting colon delimiter"
    | _ => .error "Expecting property name enclosed in double quotes"

/-- One JSON value, preceded by optional whitespace.  Fuel decreases on
every nested value; each value consumes at least one character, so any
fuel above the input length is enough. -/
def parseVal : Nat → List Char → Except String (Json × List Char)
  | 0, _ => .error "Expecting value"
  | fuel + 1, cs =>
    match jsonSkipWs cs with
    | [] => .error "Expecting value"
    | '{' :: rest =>
      match jsonSkipWs rest with
      | '}' :: rest2 => .ok (.obj [], rest2)
      | _ => parseMembersRest (parseVal fuel) fuel rest []
    | '[' :: rest =>
      match jsonSkipWs rest with
      | ']' :: rest2 => .ok (.arr [], rest2)
      | _ => parseListRest (parseVal fuel) fuel rest []
    | '"' :: rest =>
      match parseStringBody rest [] with
      | .error e => .error e
      | .ok (s, rest2) => .ok (.str s, rest2)
    | 't' :: 'r' :: 'u' :: 'e' :: rest => .ok (.bool true, rest)
    | 'f' :: 'a' :: 'l' :: 's' :: 'e' :: rest => .ok (.bool false, rest)
    | 'n' :: 'u' :: 'l' :: 'l' :: rest => .ok (.null, rest)
    | 'N' :: 'a' :: 'N' :: rest => .ok (.num "NaN", rest)
    | 'I' :: 'n' :: 'f' :: 'i' :: 'n' :: 'i' :: 't' :: 'y' :: rest =>
      .ok (.num "Infinity", rest)
    | '-' :: 'I' :: 'n' :: 'f' :: 'i' :: 'n' :: 'i' :: 't' :: 'y' :: rest =>
      .ok (.num "-Infinity", rest)
    | cs2 =>
      match numberLexeme cs2 with
      | some (lex, rest) => .ok (.num (String.mk lex), rest)
      | none => .error "Expecting value"

/-- The model of `json.loads`: parse one value, then require only
whitespace to remain. -/
def json_loads (s : String) : Except String Json :=
  match parseVal (s.length + 1) s.data with
  | .error e => .error e
  | .ok (v, rest) =>
    match jsonSkipWs rest with
    | [] => .ok v
    | _ => .error "Extra data"

/-- Outcome of `_parse_response`: a `ParseError` is the uncaught
`json.JSONDecodeError` of line 149, a `TypeError` is what the defaulting
lines 152 to 159 raise on a non-dictionary top-level value. -/
inductive NormErr where
  | parseError (msg : String) : NormErr
  | typeError (msg : String) : NormErr
  deriving DecidableEq, Repr

/-- One defaulting step of lines 152 to 159: `if key not in result:
result[key] = default`.  The membership test or the assignment can raise
on a non-dictionary value. -/
def backfill (j : Json) (k : String) (v : Json) : Except String Json :=
  match jsonContains j k with
  | .error e => .error e
  | .ok true => .ok j
  | .ok false => setItem j k v

/-- Lines 151 to 159 of `_parse_response`: backfill the four top-level
keys in source order. -/
def validateResult (j : Json) : Except String Json :=
  match backfill j "resources" (.arr []) with
  | .error e => .error e
  | .ok j1 =>
    match backfill j1 "architecture_pattern" (.str "Not identified") with
    | .error e => .error e
    | .ok j2 =>
      match backfill j2 "summary" (.str "No summary available") with
      | .error e => .error e
      | .ok j3 => backfill j3 "confidence" (.str "medium")

/-- The model of `_parse_response` (the specification calls it
`normalize`): strip fences, strip whitespace, parse, backfill defaults. -/
def parse_response (t : String) : Except NormErr Json :=
  match json_loads (cleanedText t) with
  | .error e => .error (.parseError e)
  | .ok v =>
    match validateResult v with
    | .error e => .error (.typeError e)
    | .ok r => .ok r

/-- The model of `_create_error_response`, lines 163 to 183; the
timestamp produced by `_get_timestamp` is a parameter. -/
def create_error_response (msg ts : String) : Json :=
  .obj [("metadata", .obj [("success", .bool false), ("error", .str msg),
                           ("timestamp", .str ts)]),
        ("resources", .arr []),
        ("architecture_pattern", .str "Error"),
        ("summary", .str msg),
        ("confidence", .str "N/A")]

/-- The metadata attached on success, lines 66 to 70. -/
def successMetadata (modelName ts : String) : Json :=
  .obj [("success", .bool true), ("model", .str modelName),
        ("timestamp", .str ts)]

/-- The model of `analyze_diagram`, lines 45 to 77.  The external AI
call is a parameter: either a raised exception message or the response
text.  A `json.JSONDecodeError` from parsing is caught by the first
handler, every other exception (including the `TypeError` the defaulting
step raises on a non-dictionary top level, and the one raised by the
metadata assignment itself) by the generic handler. -/
def analyze_diagram (modelName ts : String)
    (gen : Except String String) : Json :=
  match gen with
  | .error e => create_error_response ("Analysis error: " ++ e) ts
  | .ok text =>
    match parse_response text with
    | .error (.parseError m) =>
      create_error_response ("Failed to parse AI response as JSON: " ++ m) ts
    | .error (.typeError m) =>
      create_error_response ("Analysis error: " ++ m) ts
    | .ok result =>
      match setItem result "metadata" (successMetadata modelName ts) with
      | .error m => create_error_response ("Analysis error: " ++ m) ts
      | .ok r => r

/-- Line 208 and lines 232 and 241: `resource.get('category', 'Other')`. -/
def categoryOf (r : Json) : Json := getD r "category" (.str "Other")

/-- Lines 233, 246 and 249: `resource.get('connections', [])` viewed as
a list. -/
def connectionsOf (r : Json) : List Json := asArr (getD r "connections" (.arr []))

/-- Lines 207, 228, 304: `result.get('resources', [])` viewed as a list. -/
def resourcesOf (result : Json) : List Json := asArr (getD result "resources" (.arr []))

/-- Append one resource to the bucket of its category, creating the
bucket at the end on first sight: the loop body of lines 207 to 213. -/
def addRes (acc : List (Json × List Json)) (k : Json) (r : Json) :
    List (Json × List Json) :=
  match acc with
  | [] => [(k, [r])]
  | (k1, rs) :: rest =>
    if k1 = k then (k1, rs ++ [r]) :: rest else (k1, rs) :: addRes rest k r

/-- The grouping loop over the whole resource list. -/
def groupAux (acc : List (Json × List Json)) (rs : List Json) :
    List (Json × List Json) :=
  rs.foldl (fun a r => addRes a (categoryOf r) r) acc

/-- Key of the Python sort on line 216: category values are strings in
every stated property; a non-string key would raise a `TypeError` inside
Python `sorted` and is outside the theorems below. -/
def keyStr : Json → String
  | .str s => s
  | _ => ""

/-- Lexicographic strict order on character lists by code point: the
order Python string comparison uses. -/
def strLtb : List Char → List Char → Bool
  | [], [] => false
  | [], _ :: _ => true
  | _ :: _, [] => false
  | a :: as, b :: bs => if a < b then true else if b < a then false else strLtb as bs

/-- Lexicographic order, non-strict. -/
def strLeb (a b : List Char) : Bool := !(strLtb b a)

/-- Comparison of two bucket keys as Python `sorted` compares them. -/
def keyLe (a b : Json) : Bool := strLeb (keyStr a).data (keyStr b).data

/-- Insert one bucket into a list sorted by `keyStr`. -/
def insPair (p : Json × List Json) : List (Json × List Json) → List (Json × List Json)
  | [] => [p]
  | q :: rest => if keyLe p.1 q.1 then p :: q :: rest else q :: insPair p rest

/-- Sort the buckets by key: the model of `dict(sorted(categories.items()))`. -/
def sortPairs : List (Json × List Json) → List (Json × List Json)
  | [] => []
  | p :: rest => insPair p (sortPairs rest)

/-- The model of `get_resources_by_category`, lines 195 to 216. -/
def get_resources_by_category (result : Json) : List (Json × List Json) :=
  sortPairs (groupAux [] (resourcesOf result))

/-- First-match lookup of a bucket. -/
def lookupBucket : List (Json × List Json) → Json → Option (List Json)
  | [], _ => none
  | (k1, b) :: rest, k => if k1 = k then some b else lookupBucket rest k

/-- Size of the Python set built on line 232: fold that keeps first
occurrences, then count. -/
def setList (xs : List Json) : List Json :=
  xs.foldl (fun acc x => if x ∈ acc then acc else acc ++ [x]) []

/-- Counting loop of lines 240 to 242: bump the count of a category,
appending a fresh key at the end on first sight. -/
def bumpCount (acc : List (Json × Nat)) (k : Json) : List (Json × Nat) :=
  match acc with
  | [] => [(k, 1)]
  | (k1, n) :: rest =>
    if k1 = k then (k1, n + 1) :: rest else (k1, n) :: bumpCount rest k

/-- The per-category counts over the whole resource list. -/
def countsAux (acc : List (Json × Nat)) (rs : List Json) : List (Json × Nat) :=
  rs.foldl (fun a r => bumpCount a (categoryOf r)) acc

/-- First-match lookup of a count. -/
def lookupCount : List (Json × Nat) → Json → Option Nat
  | [], _ => none
  | (k1, n) :: rest, k => if k1 = k then some n else lookupCount rest k

/-- The sort key of line 246: `len(r.get('connections', []))`. -/
def connCount (r : Json) : Nat := (connectionsOf r).length

/-- One comparison step of Python `max`: a strictly greater candidate
replaces the current best, so ties keep the earlier element. -/
def maxStep (best x : Json) : Json :=
  if connCount best < connCount x then x else best

/-- Python `max(resources, key=lambda r: len(r.get('connections', [])))`:
a strictly-greater candidate replaces the current one, so the first
resource achieving the maximum is kept. -/
def maxByConn : List Json → Option Json
  | [] => none
  | r :: rs => some (rs.foldl maxStep r)

/-- The dictionary of lines 247 to 250. -/
structure ConnInfo where
  name : Json
  connections : Nat
  deriving DecidableEq, Repr

/-- The statistics dictionary of lines 230 to 237, one field per key. -/
structure Stats where
  total_resources : Nat
  total_categories : Nat
  total_connections : Nat
  resources_by_category : List (Json × Nat)
  most_connected_resource : Option ConnInfo
  confidence : Json
  deriving DecidableEq, Repr

/-- The model of `get_resource_statistics`, lines 218 to 252. -/
def get_resource_statistics (result : Json) : Stats :=
  let resources := resourcesOf result
  { total_resources := resources.length
    total_categories := (setList (resources.map categoryOf)).length
    total_connections := (resources.map (fun r => (connectionsOf r).length)).sum
    resources_by_category := countsAux [] resources
    most_connected_resource :=
      (maxByConn resources).map
        (fun m => ⟨getD m "resource_name" (.str "Unknown"), (connectionsOf m).length⟩)
    confidence := getD result "confidence" (.str "N/A") }

/-- One row of the table built on lines 312 to 319 of `app1.py`; field
names follow the column keys. -/
structure Row where
  resource_name : Json
  resource_type : Json
  category : Json
  connections : Nat
  description : String
  deriving DecidableEq, Repr

/-- View a value as the string sliced on line 318; descriptions are
strings in every stated property (a non-string would raise inside
Python `len`). -/
def strVal : Json → String
  | .str s => s
  | _ => ""

/-- The slice-and-ellipsis expression of line 318. -/
def truncateDescription (s : String) : String :=
  if 100 < s.length then s.take 100 ++ "..." else s

/-- One row of the loop body, lines 313 to 319. -/
def rowOf (r : Json) : Row :=
  { resource_name := getD r "resource_name" (.str "")
    resource_type := getD r "resource_type" (.str "")
    category := getD r "category" (.str "")
    connections := (connectionsOf r).length
    description := truncateDescription (strVal (getD r "description" (.str ""))) }

/-- The model of the data rows built by `display_resources_table`,
lines 300 to 321 of `app1.py`; the specification calls it
`toTabularRows`. -/
def display_resources_table (result : Json) : List Row :=
  (resourcesOf result).map rowOf

/-- The example result of the specification, with the field names of the
prompt contract: two resources A and B, B carrying two connections. -/
def exampleResult : Json :=
  .obj [("resources", .arr
    [.obj [("resource_name", .str "A"), ("connections", .arr [.str "B"])],
     .obj [("resource_name", .str "B"), ("connections", .arr [.str "A", .str "C"])]])]

theorem lookupMember_setMember (kvs : List (String × Json)) (k : String) (v : Json)
    (k' : String) :
    lookupMember (setMember kvs k v) k' =
      if k' = k then some v else lookupMember kvs k' := by
  induction kvs with
  | nil =>
    simp only [setMember, lookupMember]
    by_cases h : k = k'
    · simp [h]
    · simp [h, Ne.symm h]
  | cons p rest ih =>
    obtain ⟨k1, v1⟩ := p
    by_cases hk1 : k1 = k
    · subst hk1
      by_cases h : k1 = k'
      · simp [setMember, lookupMember, h]
      · simp [setMember, lookupMember, h, Ne.symm h]
    · by_cases h : k1 = k'
      · subst h
        simp [setMember, lookupMember, hk1, Ne.symm hk1]
      · simp [setMember, lookupMember, hk1, h, ih]

theorem any_key_eq (kvs : List (String × Json)) (k : String) :
    (kvs.any fun kv => kv.1 == k) = (lookupMember kvs k).isSome := by
  induction kvs with
  | nil => simp [lookupMember]
  | cons p rest ih =>
    obtain ⟨k1, v1⟩ := p
    by_cases h : k1 = k <;> simp [lookupMember, h, ih]

theorem backfill_obj (kvs : List (String × Json)) (k : String) (v : Json) :
    ∃ kvs2, backfill (.obj kvs) k v = .ok (.obj kvs2) ∧
      lookupMember kvs2 k = some ((lookupMember kvs k).getD v) ∧
      ∀ k', k' ≠ k → lookupMember kvs2 k' = lookupMember kvs k' := by
  cases h : lookupMember kvs k with
  | some w =>
    refine ⟨kvs, ?_, by simp [h], fun _ _ => rfl⟩
    simp [backfill, jsonContains, any_key_eq, h]
  | none =>
    refine ⟨setMember kvs k v, ?_, ?_, ?_⟩
    · simp [backfill, jsonContains, any_key_eq, h, setItem]
    · rw [lookupMember_setMember, if_pos rfl]; rfl
    · intro k' hk'
      rw [lookupMember_setMember, if_neg hk']

/-- C1: for every raw text whose cleaned form parses as a JSON object,
`_parse_response` returns an object in which a missing `confidence` is
filled with "medium", a missing `architecture_pattern` with
"Not identified", a missing `summary` with "No summary available" and a
missing `resources` with the empty array, while every key present in the
parsed object keeps its value. -/
theorem parse_response_defaults (t : String) (kvs : List (String × Json))
    (h : json_loads (cleanedText t) = .ok (.obj kvs)) :
    ∃ kvs', parse_response t = .ok (.obj kvs') ∧
      lookupMember kvs' "resources" =
        some ((lookupMember kvs "resources").getD (.arr [])) ∧
      lookupMember kvs' "architecture_pattern" =
        some ((lookupMember kvs "architecture_pattern").getD (.str "Not identified")) ∧
      lookupMember kvs' "summary" =
        some ((lookupMember kvs "summary").getD (.str "No summary available")) ∧
      lookupMember kvs' "confidence" =
        some ((lookupMember kvs "confidence").getD (.str "medium")) ∧
      ∀ k, k ≠ "resources" → k ≠ "architecture_pattern" → k ≠ "summary" →
        k ≠ "confidence" → lookupMember kvs' k = lookupMember kvs k := by
  obtain ⟨m1, e1, l1, o1⟩ := backfill_obj kvs "resources" (.arr [])
  obtain ⟨m2, e2, l2, o2⟩ := backfill_obj m1 "architecture_pattern" (.str "Not identified")
  obtain ⟨m3, e3, l3, o3⟩ := backfill_obj m2 "summary" (.str "No summary available")
  obtain ⟨m4, e4, l4, o4⟩ := backfill_obj m3 "confidence" (.str "medium")
  refine ⟨m4, ?_, ?_, ?_, ?_, ?_, ?_⟩
  · unfold parse_response
    rw [h]
    simp [validateResult, e1, e2, e3, e4]
  · rw [o4 _ (by decide), o3 _ (by decide), o2 _ (by decide), l1]
  · rw [o4 _ (by decide), o3 _ (by decide), l2, o1 _ (by decide)]
  · rw [o4 _ (by decide), l3, o2 _ (by decide), o1 _ (by decide)]
  · rw [l4, o3 _ (by decide), o2 _ (by decide), o1 _ (by decide)]
  · intro k h1 h2 h3 h4
    rw [o4 _ h4, o3 _ h3, o2 _ h2, o1 _ h1]

theorem parse_response_defaults_witness :
    json_loads (cleanedText "\x7b\"confidence\": \"high\"\x7d") =
      .ok (.obj [("confidence", .str "high")]) ∧
    ∃ kvs', parse_response "\x7b\"confidence\": \"high\"\x7d" = .ok (.obj kvs') ∧
      lookupMember kvs' "resources" = some (.arr []) ∧
      lookupMember kvs' "architecture_pattern" = some (.str "Not identified") ∧
      lookupMember kvs' "summary" = some (.str "No summary available") ∧
      lookupMember kvs' "confidence" = some (.str "high") := by
  refine ⟨rfl, ?_⟩
  obtain ⟨kvs', hp, h1, h2, h3, h4, _⟩ :=
    parse_response_defaults "\x7b\"confidence\": \"high\"\x7d" [("confidence", .str "high")] rfl
  exact ⟨kvs', hp, h1, h2, h3, h4⟩

/-- C2: whenever the cleaned text is not syntactically valid JSON,
`_parse_response` propagates the parser failure as a `ParseError`
carrying the original parser message, and returns no defaulted result. -/
theorem parse_response_invalid (t : String) (e : String)
    (h : json_loads (cleanedText t) = .error e) :
    parse_response t = .error (.parseError e) := by
  unfold parse_response
  rw [h]

theorem parse_response_invalid_witness :
    json_loads (cleanedText "\x7b\"a\": ") = .error "Expecting value" ∧
    parse_response "\x7b\"a\": " = .error (.parseError "Expecting value") :=
  ⟨rfl, parse_response_invalid "\x7b\"a\": " "Expecting value" rfl⟩

/-- C8, counterexample: on the top-level array `[1, 2]` the normalizer
does not raise a `ParseError`; the defaulting step raises a `TypeError`
(the item assignment on a list), so the claim that any non-object
top-level value yields a `ParseError` at normalization time fails on the
code. -/
theorem nonobject_parse_counterexample :
    parse_response "[1, 2]" =
      .error (.typeError "list indices must be integers or slices, not str") ∧
    ∀ m, parse_response "[1, 2]" ≠ .error (.parseError m) := by
  refine ⟨rfl, fun m h => ?_⟩
  rw [(rfl : parse_response "[1, 2]" =
    .error (.typeError "list indices must be integers or slices, not str"))] at h
  exact absurd (Except.error.inj h) (by simp)

/-- C8, amended: a non-object top-level value is never silently
defaulted, but the failure is a `TypeError` raised by the first
defaulting assignment, not a `ParseError`; stated for a top-level array
that does not contain the string "resources" as an element (membership
is how the Python `in` test reads a list). -/
theorem nonobject_no_default_amended (t : String) (xs : List Json)
    (h : json_loads (cleanedText t) = .ok (.arr xs))
    (hmem : Json.str "resources" ∉ xs) :
    parse_response t =
      .error (.typeError "list indices must be integers or slices, not str") := by
  unfold parse_response
  rw [h]
  have hany : (xs.any fun x => x == Json.str "resources") = false := by
    simp only [List.any_eq_false, beq_iff_eq]
    exact fun x hx he => hmem (he ▸ hx)
  simp [validateResult, backfill, jsonContains, hany, setItem]

theorem nonobject_no_default_amended_witness :
    parse_response "[null]" =
      .error (.typeError "list indices must be integers or slices, not str") :=
  nonobject_no_default_amended "[null]" [Json.null] rfl (by decide)

/-- C3: a failed AI call and a parse failure are each converted into the
synthetic error result of `_create_error_response`, whose shape is
`metadata = success false, error message, timestamp`, empty `resources`,
`architecture_pattern = "Error"`, `summary` the message and
`confidence = "N/A"`; the generic handler also covers the `TypeError`
raised inside `_parse_response` on a non-dictionary top level, so no
exception escapes `analyze_diagram`. -/
theorem analyze_diagram_error_boundary :
    (∀ e modelName ts, analyze_diagram modelName ts (.error e) =
        create_error_response ("Analysis error: " ++ e) ts) ∧
    (∀ t m modelName ts, parse_response t = .error (.parseError m) →
        analyze_diagram modelName ts (.ok t) =
          create_error_response ("Failed to parse AI response as JSON: " ++ m) ts) ∧
    (∀ t m modelName ts, parse_response t = .error (.typeError m) →
        analyze_diagram modelName ts (.ok t) =
          create_error_response ("Analysis error: " ++ m) ts) ∧
    (∀ msg ts,
      lookupKey (create_error_response msg ts) "metadata" =
        some (.obj [("success", .bool false), ("error", .str msg),
                    ("timestamp", .str ts)]) ∧
      lookupKey (create_error_response msg ts) "resources" = some (.arr []) ∧
      lookupKey (create_error_response msg ts) "architecture_pattern" =
        some (.str "Error") ∧
      lookupKey (create_error_response msg ts) "summary" = some (.str msg) ∧
      lookupKey (create_error_response msg ts) "confidence" = some (.str "N/A")) := by
  refine ⟨fun e modelName ts => rfl, fun t m modelName ts h => ?_,
    fun t m modelName ts h => ?_, fun msg ts => ⟨rfl, rfl, rfl, rfl, rfl⟩⟩
  · simp [analyze_diagram, h]
  · simp [analyze_diagram, h]

theorem analyze_diagram_error_boundary_witness :
    analyze_diagram "gemini-1.5-flash-latest" "2024-01-01T00:00:00" (.ok "\x7b") =
      create_error_response
        ("Failed to parse AI response as JSON: " ++
          "Expecting property name enclosed in double quotes")
        "2024-01-01T00:00:00" :=
  analyze_diagram_error_boundary.2.1 "\x7b"
    "Expecting property name enclosed in double quotes"
    "gemini-1.5-flash-latest" "2024-01-01T00:00:00" rfl

/-- C9: the tabular export produces one row per resource, carrying the
resource name, type, category, connection count and description, with a
description longer than 100 characters cut to its first 100 characters
followed by the three-dot ellipsis marker (total length 103) and a
description of at most 100 characters kept untouched. -/
theorem tabular_rows (result : Json) (r : Json) (hr : r ∈ resourcesOf result) :
    rowOf r ∈ display_resources_table result ∧
    (display_resources_table result).length = (resourcesOf result).length ∧
    (rowOf r).resource_name = getD r "resource_name" (.str "") ∧
    (rowOf r).resource_type = getD r "resource_type" (.str "") ∧
    (rowOf r).category = getD r "category" (.str "") ∧
    (rowOf r).connections = (connectionsOf r).length ∧
    ∀ s, lookupKey r "description" = some (.str s) →
      (100 < s.length → (rowOf r).description = s.take 100 ++ "..." ∧
        (rowOf r).description.length = 103) ∧
      (s.length ≤ 100 → (rowOf r).description = s) := by
  refine ⟨List.mem_map_of_mem rowOf hr, by simp [display_resources_table],
    rfl, rfl, rfl, rfl, ?_⟩
  intro s hs
  have hd : (rowOf r).description = truncateDescription s := by
    cases r <;> simp only [lookupKey] at hs <;> try exact absurd hs (by simp)
    rename_i kvs
    simp [rowOf, getD, hs, strVal]
  constructor
  · intro hlen
    have htd : truncateDescription s = s.take 100 ++ "..." := by
      unfold truncateDescription
      rw [if_pos hlen]
    have hdata : s.length = s.data.length := by cases s; rfl
    have htake : (s.take 100).length = 100 := by
      have h1 : (s.take 100).length = (s.take 100).data.length := by
        cases h : s.take 100
        rfl
      rw [h1, String.data_take, List.length_take]
      exact Nat.min_eq_left (by omega)
    constructor
    · rw [hd, htd]
    · rw [hd, htd, String.length_append, htake]
      rfl
  · intro hlen
    rw [hd]
    unfold truncateDescription
    rw [if_neg (by omega)]

theorem tabular_rows_witness :
    100 < (String.mk (List.replicate 150 'a')).length ∧
    (rowOf (Json.obj [("description", .str (String.mk (List.replicate 150 'a')))])).description =
      (String.mk (List.replicate 150 'a')).take 100 ++ "..." := by
  have hlen : 100 < (String.mk (List.replicate 150 'a')).length := by
    show 100 < (List.replicate 150 'a').length
    rw [List.length_replicate]
    omega
  have hr : (Json.obj [("description", Json.str (String.mk (List.replicate 150 'a')))]) ∈
      resourcesOf (Json.obj [("resources", Json.arr
        [Json.obj [("description", Json.str (String.mk (List.replicate 150 'a')))]])]) := by
    show _ ∈ [Json.obj [("description", Json.str (String.mk (List.replicate 150 'a')))]]
    exact List.mem_cons_self _ _
  have h := tabular_rows
    (Json.obj [("resources", Json.arr
      [Json.obj [("description", Json.str (String.mk (List.replicate 150 'a')))]])])
    (Json.obj [("description", Json.str (String.mk (List.replicate 150 'a')))]) hr
  have h2 := (h.2.2.2.2.2.2 (String.mk (List.replicate 150 'a')) rfl).1 hlen
  exact ⟨hlen, h2.1⟩

theorem maxFold_decomp : ∀ (rs : List Json) (r : Json),
    ∃ l1 l2, r :: rs = l1 ++ (rs.foldl maxStep r) :: l2 ∧
      (∀ x ∈ l1, connCount x < connCount (rs.foldl maxStep r)) ∧
      (∀ x ∈ r :: rs, connCount x ≤ connCount (rs.foldl maxStep r)) := by
  intro rs
  induction rs with
  | nil =>
    intro r
    refine ⟨[], [], rfl, by simp, ?_⟩
    intro x hx
    rw [List.mem_singleton] at hx
    rw [hx, List.foldl_nil]
  | cons a rs ih =>
    intro r
    rw [List.foldl_cons]
    by_cases h : connCount r < connCount a
    · have hred : maxStep r a = a := by simp [maxStep, h]
      rw [hred]
      obtain ⟨l1, l2, hdec, hlt, hle⟩ := ih a
      refine ⟨r :: l1, l2, ?_, ?_, ?_⟩
      · rw [List.cons_append, ← hdec]
      · intro x hx
        rcases List.mem_cons.mp hx with hx | hx
        · rw [hx]
          exact lt_of_lt_of_le h (hle a (List.mem_cons_self a rs))
        · exact hlt x hx
      · intro x hx
        rcases List.mem_cons.mp hx with hx | hx
        · rw [hx]
          exact le_of_lt (lt_of_lt_of_le h (hle a (List.mem_cons_self a rs)))
        · exact hle x hx
    · have hred : maxStep r a = r := by simp [maxStep, h]
      rw [hred]
      obtain ⟨l1, l2, hdec, hlt, hle⟩ := ih r
      have ha : connCount a ≤ connCount (rs.foldl maxStep r) :=
        le_trans (Nat.le_of_not_lt h) (hle r (List.mem_cons_self r rs))
      cases l1 with
      | nil =>
        simp only [List.nil_append] at hdec
        have h1 : r = rs.foldl maxStep r := by
          have := congrArg (fun l => l.head?) hdec
          simpa using this
        have h2 : rs = l2 := by
          have := congrArg List.tail hdec
          simpa using this
        refine ⟨[], a :: l2, ?_, by simp, ?_⟩
        · rw [List.nil_append, ← h2]
          exact congrArg (fun z => z :: a :: rs) h1
        · intro x hx
          rcases List.mem_cons.mp hx with hx | hx
          · rw [hx]
            exact hle r (List.mem_cons_self r rs)
          · rcases List.mem_cons.mp hx with hx | hx
            · rw [hx]
              exact ha
            · exact hle x (List.mem_cons_of_mem r hx)
      | cons y l1' =>
        have h1 : r = y := by
          have := congrArg (fun l => l.head?) hdec
          simpa using this
        have h2 : rs = l1' ++ (rs.foldl maxStep r) :: l2 := by
          have := congrArg List.tail hdec
          simpa using this
        have hy : connCount y < connCount (rs.foldl maxStep r) :=
          hlt y (List.mem_cons_self y l1')
        have hr : connCount r < connCount (rs.foldl maxStep r) := by
          have he : connCount r = connCount y := by rw [h1]
          rw [he]
          exact hy
        refine ⟨r :: a :: l1', l2, ?_, ?_, ?_⟩
        · rw [List.cons_append, List.cons_append, ← h2]
        · intro x hx
          rcases List.mem_cons.mp hx with hx | hx
          · rw [hx]
            exact hr
          · rcases List.mem_cons.mp hx with hx | hx
            · rw [hx]
              exact lt_of_le_of_lt (Nat.le_of_not_lt h) hr
            · exact hlt x (List.mem_cons_of_mem y hx)
        · intro x hx
          rcases List.mem_cons.mp hx with hx | hx
          · rw [hx]
            exact hle r (List.mem_cons_self r rs)
          · rcases List.mem_cons.mp hx with hx | hx
            · rw [hx]
              exact ha
            · exact hle x (List.mem_cons_of_mem r hx)

/-- C7: for a non-empty resource list the statistics report as most
connected the first resource (in original order) achieving the maximum
connection count, as a name and connection-count pair, and `none` when
the resource list is empty; on the specification example with resources
A (one connection) and B (two connections) the total connection count is
3 and the most connected resource is B with count 2. -/
theorem most_connected_first :
    (∀ result, resourcesOf result = [] →
      (get_resource_statistics result).most_connected_resource = none) ∧
    (∀ result r0 rs0, resourcesOf result = r0 :: rs0 →
      ∃ m l1 l2,
        (get_resource_statistics result).most_connected_resource =
          some ⟨getD m "resource_name" (.str "Unknown"), connCount m⟩ ∧
        r0 :: rs0 = l1 ++ m :: l2 ∧
        (∀ x ∈ l1, connCount x < connCount m) ∧
        (∀ x ∈ r0 :: rs0, connCount x ≤ connCount m)) ∧
    ((get_resource_statistics exampleResult).total_connections = 3 ∧
      (get_resource_statistics exampleResult).most_connected_resource =
        some ⟨.str "B", 2⟩) := by
  refine ⟨?_, ?_, rfl, rfl⟩
  · intro result h
    simp [get_resource_statistics, h, maxByConn]
  · intro result r0 rs0 h
    obtain ⟨l1, l2, hdec, hlt, hle⟩ := maxFold_decomp rs0 r0
    refine ⟨rs0.foldl maxStep r0, l1, l2, ?_, hdec, hlt, hle⟩
    simp [get_resource_statistics, h, maxByConn, connCount]

theorem most_connected_first_witness :
    ∃ m l1 l2,
      (get_resource_statistics exampleResult).most_connected_resource =
        some ⟨getD m "resource_name" (.str "Unknown"), connCount m⟩ ∧
      ([Json.obj [("resource_name", .str "A"), ("connections", .arr [.str "B"])],
        Json.obj [("resource_name", .str "B"),
                  ("connections", .arr [.str "A", .str "C"])]] : List Json) =
        l1 ++ m :: l2 ∧
      (∀ x ∈ l1, connCount x < connCount m) ∧
      (∀ x ∈ ([Json.obj [("resource_name", .str "A"), ("connections", .arr [.str "B"])],
        Json.obj [("resource_name", .str "B"),
                  ("connections", .arr [.str "A", .str "C"])]] : List Json),
        connCount x ≤ connCount m) :=
  most_connected_first.2.1 exampleResult
    (Json.obj [("resource_name", .str "A"), ("connections", .arr [.str "B"])])
    [Json.obj [("resource_name", .str "B"), ("connections", .arr [.str "A", .str "C"])]]
    rfl

theorem bumpCount_snd_sum (acc : List (Json × Nat)) (k : Json) :
    ((bumpCount acc k).map Prod.snd).sum = ((acc.map Prod.snd)).sum + 1 := by
  induction acc with
  | nil => simp [bumpCount]
  | cons p rest ih =>
    obtain ⟨k1, n⟩ := p
    by_cases h : k1 = k
    · simp [bumpCount, h]
      omega
    · simp [bumpCount, h, ih]
      omega

theorem countsAux_sum : ∀ (rs : List Json) (acc : List (Json × Nat)),
    ((countsAux acc rs).map Prod.snd).sum = (acc.map Prod.snd).sum + rs.length := by
  intro rs
  induction rs with
  | nil => intro acc; simp [countsAux]
  | cons r rs ih =>
    intro acc
    have hstep : countsAux acc (r :: rs) = countsAux (bumpCount acc (categoryOf r)) rs := by
      simp [countsAux]
    rw [hstep, ih, bumpCount_snd_sum]
    simp
    omega

theorem lookupCount_isSome_iff (acc : List (Json × Nat)) (k : Json) :
    (lookupCount acc k).isSome ↔ k ∈ acc.map Prod.fst := by
  induction acc with
  | nil => simp [lookupCount]
  | cons p rest ih =>
    obtain ⟨k1, n⟩ := p
    by_cases h : k1 = k <;> simp [lookupCount, h, ih]
    exact fun he => absurd he.symm h

theorem bumpCount_fst (acc : List (Json × Nat)) (k : Json) :
    (bumpCount acc k).map Prod.fst =
      if k ∈ acc.map Prod.fst then acc.map Prod.fst else acc.map Prod.fst ++ [k] := by
  induction acc with
  | nil => simp [bumpCount]
  | cons p rest ih =>
    obtain ⟨k1, n⟩ := p
    by_cases h : k1 = k
    · simp [bumpCount, h]
    · have hne : ¬k = k1 := fun he => h he.symm
      by_cases hmem : k ∈ rest.map Prod.fst <;>
        simp [bumpCount, h, ih, hne, hmem]

theorem countsAux_fst : ∀ (rs : List Json) (acc : List (Json × Nat)),
    (countsAux acc rs).map Prod.fst =
      (rs.map categoryOf).foldl
        (fun a x => if x ∈ a then a else a ++ [x]) (acc.map Prod.fst) := by
  intro rs
  induction rs with
  | nil => intro acc; simp [countsAux]
  | cons r rs ih =>
    intro acc
    have hstep : countsAux acc (r :: rs) = countsAux (bumpCount acc (categoryOf r)) rs := by
      simp [countsAux]
    rw [hstep, ih, bumpCount_fst]
    simp

theorem mem_foldl_insert : ∀ (xs : List Json) (acc : List Json) (x : Json),
    x ∈ xs.foldl (fun a y => if y ∈ a then a else a ++ [y]) acc ↔ x ∈ acc ∨ x ∈ xs := by
  intro xs
  induction xs with
  | nil => intro acc x; simp
  | cons y ys ih =>
    intro acc x
    rw [List.foldl_cons]
    by_cases hy : y ∈ acc
    · rw [if_pos hy, ih]
      rw [List.mem_cons]
      constructor
      · intro h
        exact h.imp_right Or.inr
      · rintro (h | rfl | h)
        · exact Or.inl h
        · exact Or.inl hy
        · exact Or.inr h
    · rw [if_neg hy, ih]
      simp only [List.mem_append, List.mem_singleton, List.mem_cons]
      tauto

/-- C10: the statistics are internally consistent for every result: the
per-category counts sum to the total resource count, the key set of
`resources_by_category` is exactly the set of (defaulted) category
values occurring in the resources, and the number of keys equals
`total_categories`. -/
theorem stats_consistent (result : Json) :
    ((get_resource_statistics result).resources_by_category.map Prod.snd).sum =
      (get_resource_statistics result).total_resources ∧
    (∀ k, k ∈ (get_resource_statistics result).resources_by_category.map Prod.fst ↔
      k ∈ (resourcesOf result).map categoryOf) ∧
    ((get_resource_statistics result).resources_by_category.map Prod.fst).length =
      (get_resource_statistics result).total_categories := by
  refine ⟨?_, ?_, ?_⟩
  · show ((countsAux [] (resourcesOf result)).map Prod.snd).sum = (resourcesOf result).length
    rw [countsAux_sum]
    simp
  · intro k
    show k ∈ (countsAux [] (resourcesOf result)).map Prod.fst ↔ _
    rw [countsAux_fst]
    simp only [List.map_nil]
    rw [mem_foldl_insert]
    simp
  · show ((countsAux [] (resourcesOf result)).map Prod.fst).length =
      (setList ((resourcesOf result).map categoryOf)).length
    rw [countsAux_fst]
    rfl

theorem lookupBucket_addRes (acc : List (Json × List Json)) (k : Json) (r : Json)
    (k' : Json) :
    lookupBucket (addRes acc k r) k' =
      if k' = k then some ((lookupBucket acc k).getD [] ++ [r])
      else lookupBucket acc k' := by
  induction acc with
  | nil =>
    by_cases h : k' = k
    · simp [addRes, lookupBucket, h]
    · simp [addRes, lookupBucket, h, Ne.symm h]
  | cons p rest ih =>
    obtain ⟨k1, b⟩ := p
    by_cases h1 : k1 = k
    · subst h1
      by_cases h2 : k' = k1
      · simp [addRes, lookupBucket, h2]
      · simp [addRes, lookupBucket, h2, Ne.symm h2]
    · by_cases h2 : k' = k
      · subst h2
        simp [addRes, lookupBucket, h1, ih]
      · simp [addRes, lookupBucket, h1, h2, ih]

theorem lookupBucket_groupAux : ∀ (rs : List Json) (acc : List (Json × List Json))
    (k : Json),
    lookupBucket (groupAux acc rs) k =
      match lookupBucket acc k with
      | some b => some (b ++ rs.filter (fun r => categoryOf r == k))
      | none =>
        if rs.filter (fun r => categoryOf r == k) = [] then none
        else some (rs.filter (fun r => categoryOf r == k)) := by
  intro rs
  induction rs with
  | nil =>
    intro acc k
    have h0 : groupAux acc [] = acc := rfl
    rw [h0]
    cases lookupBucket acc k <;> simp
  | cons r rs ih =>
    intro acc k
    have hstep : groupAux acc (r :: rs) = groupAux (addRes acc (categoryOf r) r) rs := by
      simp [groupAux]
    rw [hstep, ih, lookupBucket_addRes]
    by_cases hc : k = categoryOf r
    · subst hc
      rw [if_pos rfl]
      simp only [List.filter_cons, beq_self_eq_true, if_true]
      cases hacc : lookupBucket acc (categoryOf r) <;> simp
    · have hpred : (categoryOf r == k) = false := by
        rw [beq_eq_false_iff_ne]
        exact fun he => hc he.symm
      rw [if_neg hc]
      simp [List.filter_cons, hpred]

theorem addRes_fst (acc : List (Json × List Json)) (k : Json) (r : Json) :
    (addRes acc k r).map Prod.fst =
      if k ∈ acc.map Prod.fst then acc.map Prod.fst else acc.map Prod.fst ++ [k] := by
  induction acc with
  | nil => simp [addRes]
  | cons p rest ih =>
    obtain ⟨k1, b⟩ := p
    by_cases h : k1 = k
    · simp [addRes, h]
    · have hne : ¬k = k1 := fun he => h he.symm
      by_cases hmem : k ∈ rest.map Prod.fst <;>
        simp [addRes, h, ih, hne, hmem]

theorem groupAux_fst : ∀ (rs : List Json) (acc : List (Json × List Json)),
    (groupAux acc rs).map Prod.fst =
      (rs.map categoryOf).foldl
        (fun a x => if x ∈ a then a else a ++ [x]) (acc.map Prod.fst) := by
  intro rs
  induction rs with
  | nil => intro acc; rfl
  | cons r rs ih =>
    intro acc
    have hstep : groupAux acc (r :: rs) = groupAux (addRes acc (categoryOf r) r) rs := by
      simp [groupAux]
    rw [hstep, ih, addRes_fst]
    simp

theorem lookupBucket_isSome_iff (acc : List (Json × List Json)) (k : Json) :
    (lookupBucket acc k).isSome ↔ k ∈ acc.map Prod.fst := by
  induction acc with
  | nil => simp [lookupBucket]
  | cons p rest ih =>
    obtain ⟨k1, b⟩ := p
    by_cases h : k1 = k <;> simp [lookupBucket, h, ih]
    exact fun he => absurd he.symm h

theorem foldl_insert_nodup : ∀ (xs : List Json) (acc : List Json), acc.Nodup →
    (xs.foldl (fun a y => if y ∈ a then a else a ++ [y]) acc).Nodup := by
  intro xs
  induction xs with
  | nil => intro acc h; exact h
  | cons y ys ih =>
    intro acc h
    rw [List.foldl_cons]
    by_cases hy : y ∈ acc
    · rw [if_pos hy]
      exact ih acc h
    · rw [if_neg hy]
      refine ih _ ?_
      rw [List.nodup_append]
      exact ⟨h, List.nodup_singleton y, by simpa [List.disjoint_singleton] using hy⟩

theorem insPair_perm (p : Json × List Json) : ∀ (l : List (Json × List Json)),
    (insPair p l).Perm (p :: l) := by
  intro l
  induction l with
  | nil => simp [insPair]
  | cons q rest ih =>
    by_cases h : keyLe p.1 q.1
    · simp [insPair, h]
    · rw [insPair, if_neg h]
      exact (ih.cons q).trans (List.Perm.swap p q rest)

theorem sortPairs_perm : ∀ (l : List (Json × List Json)), (sortPairs l).Perm l := by
  intro l
  induction l with
  | nil => simp [sortPairs]
  | cons p rest ih =>
    rw [sortPairs]
    exact (insPair_perm p (sortPairs rest)).trans (ih.cons p)

theorem lookupBucket_perm {l1 l2 : List (Json × List Json)} (h : l1.Perm l2) :
    (l1.map Prod.fst).Nodup → ∀ k, lookupBucket l1 k = lookupBucket l2 k := by
  induction h with
  | nil => intro _ _; rfl
  | cons x h ih =>
    intro hn k
    obtain ⟨x1, xb⟩ := x
    by_cases he : x1 = k
    · simp [lookupBucket, he]
    · simp only [lookupBucket, if_neg he]
      exact ih (by simpa using hn.of_cons) k
  | swap x y l =>
    intro hn k
    obtain ⟨x1, xb⟩ := x
    obtain ⟨y1, yb⟩ := y
    have hxy : y1 ≠ x1 := by
      simp only [List.map_cons, List.nodup_cons, List.mem_cons] at hn
      exact fun he => hn.1 (Or.inl he)
    by_cases h1 : y1 = k
    · subst h1
      simp [lookupBucket, Ne.symm hxy, hxy]
    · by_cases h2 : x1 = k <;> simp [lookupBucket, h1, h2]
  | trans h1 h2 ih1 ih2 =>
    intro hn k
    rw [ih1 hn k, ih2 (((h1.map Prod.fst).nodup_iff).mp hn) k]

theorem groupAux_nodup_fst (rs : List Json) :
    ((groupAux [] rs).map Prod.fst).Nodup := by
  rw [groupAux_fst]
  exact foldl_insert_nodup (rs.map categoryOf) [] List.nodup_nil

theorem lookupBucket_grouping (result : Json) (k : Json) :
    lookupBucket (get_resources_by_category result) k =
      if (resourcesOf result).filter (fun r => categoryOf r == k) = [] then none
      else some ((resourcesOf result).filter (fun r => categoryOf r == k)) := by
  have hperm := sortPairs_perm (groupAux [] (resourcesOf result))
  have hn : ((sortPairs (groupAux [] (resourcesOf result))).map Prod.fst).Nodup :=
    ((hperm.map Prod.fst).nodup_iff).mpr (groupAux_nodup_fst (resourcesOf result))
  have hg : get_resources_by_category result =
      sortPairs (groupAux [] (resourcesOf result)) := rfl
  rw [hg, lookupBucket_perm hperm hn k, lookupBucket_groupAux]
  simp [lookupBucket]

/-- C6, counterexample: a resource whose `category` is present as the
empty string is bucketed and counted under the empty string, not under
"Other": `resource.get('category', 'Other')` only substitutes the
default when the key is absent, so the claim that an empty-string
category is read as "Other" fails on the code. -/
theorem empty_category_counterexample :
    get_resources_by_category
        (.obj [("resources", .arr [.obj [("category", .str "")]])]) =
      [(.str "", [.obj [("category", .str "")]])] ∧
    lookupBucket (get_resources_by_category
        (.obj [("resources", .arr [.obj [("category", .str "")]])]))
        (.str "Other") = none ∧
    (get_resource_statistics
        (.obj [("resources", .arr [.obj [("category", .str "")]])])).resources_by_category =
      [(.str "", 1)] :=
  ⟨rfl, rfl, rfl⟩

/-- C6, amended: a resource with no `category` key is read as "Other" by
the grouping and by the statistics; a `category` present with any value,
the empty string included, is read as that value. -/
theorem category_default_amended (result r : Json) (kvs : List (String × Json))
    (hr : r ∈ resourcesOf result) (hobj : r = .obj kvs) :
    (lookupMember kvs "category" = none →
      categoryOf r = .str "Other" ∧
      (∃ b, lookupBucket (get_resources_by_category result) (.str "Other") = some b ∧
        r ∈ b) ∧
      (lookupCount (get_resource_statistics result).resources_by_category
        (.str "Other")).isSome) ∧
    (∀ v, lookupMember kvs "category" = some v →
      categoryOf r = v ∧
      ∃ b, lookupBucket (get_resources_by_category result) v = some b ∧ r ∈ b) := by
  have hbucket : ∀ k : Json, categoryOf r = k →
      ∃ b, lookupBucket (get_resources_by_category result) k = some b ∧ r ∈ b := by
    intro k hk
    have hmem : r ∈ (resourcesOf result).filter (fun x => categoryOf x == k) := by
      rw [List.mem_filter]
      exact ⟨hr, by rw [beq_iff_eq]; exact hk⟩
    have hne : (resourcesOf result).filter (fun x => categoryOf x == k) ≠ [] :=
      List.ne_nil_of_mem hmem
    rw [lookupBucket_grouping, if_neg hne]
    exact ⟨_, rfl, hmem⟩
  have hcount : ∀ k : Json, categoryOf r = k →
      (lookupCount (get_resource_statistics result).resources_by_category k).isSome := by
    intro k hk
    have hc : (get_resource_statistics result).resources_by_category =
        countsAux [] (resourcesOf result) := rfl
    rw [hc, lookupCount_isSome_iff, countsAux_fst]
    simp only [List.map_nil]
    rw [mem_foldl_insert]
    right
    rw [List.mem_map]
    exact ⟨r, hr, hk⟩
  refine ⟨?_, ?_⟩
  · intro hnone
    have hk : categoryOf r = .str "Other" := by
      rw [hobj]
      simp [categoryOf, getD, hnone]
    exact ⟨hk, hbucket _ hk, hcount _ hk⟩
  · intro v hsome
    have hk : categoryOf r = v := by
      rw [hobj]
      simp [categoryOf, getD, hsome]
    exact ⟨hk, hbucket _ hk⟩

theorem category_default_amended_witness :
    categoryOf (.obj [("resource_type", .str "VM")]) = .str "Other" ∧
    (∃ b, lookupBucket (get_resources_by_category
        (.obj [("resources", .arr [.obj [("resource_type", .str "VM")]])]))
        (.str "Other") = some b ∧
      (Json.obj [("resource_type", .str "VM")]) ∈ b) ∧
    (lookupCount (get_resource_statistics
        (.obj [("resources", .arr [.obj [("resource_type", .str "VM")]])])).resources_by_category
      (.str "Other")).isSome := by
  have h := (category_default_amended
    (.obj [("resources", .arr [.obj [("resource_type", .str "VM")]])])
    (.obj [("resource_type", .str "VM")])
    [("resource_type", .str "VM")]
    (by exact List.mem_cons_self _ _)
    rfl).1 rfl
  exact h

theorem strLtb_iff : ∀ as bs : List Char, strLtb as bs = true ↔ List.Lex (· < ·) as bs := by
  intro as
  induction as with
  | nil =>
    intro bs
    cases bs with
    | nil =>
      simp only [strLtb, Bool.false_eq_true, false_iff]
      exact fun h => by cases h
    | cons b bs =>
      simp only [strLtb, true_iff]
      exact List.Lex.nil
  | cons a as ih =>
    intro bs
    cases bs with
    | nil =>
      simp only [strLtb, Bool.false_eq_true, false_iff]
      exact fun h => by cases h
    | cons b bs =>
      rw [strLtb]
      rcases lt_trichotomy a b with h | h | h
      · rw [if_pos h]
        simp only [true_iff]
        exact List.Lex.rel h
      · subst h
        rw [if_neg (lt_irrefl a), if_neg (lt_irrefl a), ih bs]
        constructor
        · exact List.Lex.cons
        · intro hl
          cases hl with
          | cons h2 => exact h2
          | rel h2 => exact absurd h2 (lt_irrefl a)
      · rw [if_neg (lt_asymm h), if_pos h]
        simp only [Bool.false_eq_true, false_iff]
        intro hl
        cases hl with
        | cons h2 => exact absurd h (lt_irrefl a)
        | rel h2 => exact absurd h2 (lt_asymm h)

theorem strLtb_iff_string (s t : String) : strLtb s.data t.data = true ↔ s < t := by
  rw [String.lt_iff_toList_lt]
  exact strLtb_iff s.data t.data

theorem keyLe_iff (a b : Json) : keyLe a b = true ↔ keyStr a ≤ keyStr b := by
  have hiff := strLtb_iff_string (keyStr b) (keyStr a)
  rw [keyLe, strLeb]
  cases hc : strLtb (keyStr b).data (keyStr a).data
  · have hnlt : ¬ keyStr b < keyStr a := fun hlt =>
      Bool.false_ne_true (hc ▸ hiff.mpr hlt)
    exact iff_of_true rfl (not_lt.mp hnlt)
  · have hlt : keyStr b < keyStr a := hiff.mp hc
    exact iff_of_false (by simp) (not_le.mpr hlt)

theorem insPair_pairwise (p : Json × List Json) :
    ∀ (l : List (Json × List Json)),
      l.Pairwise (fun a b => keyStr a.1 ≤ keyStr b.1) →
      (insPair p l).Pairwise (fun a b => keyStr a.1 ≤ keyStr b.1) := by
  intro l
  induction l with
  | nil =>
    intro _
    simp [insPair]
  | cons q rest ih =>
    intro hp
    rw [insPair]
    by_cases h : keyLe p.1 q.1
    · rw [if_pos h]
      have hle : keyStr p.1 ≤ keyStr q.1 := (keyLe_iff p.1 q.1).mp h
      refine List.Pairwise.cons ?_ hp
      intro b hb
      rcases List.mem_cons.mp hb with hb | hb
      · rw [hb]
        exact hle
      · exact le_trans hle ((List.pairwise_cons.mp hp).1 b hb)
    · rw [if_neg h]
      have hge : keyStr q.1 ≤ keyStr p.1 :=
        le_of_not_le fun hc => h ((keyLe_iff p.1 q.1).mpr hc)
      obtain ⟨hq, hrest⟩ := List.pairwise_cons.mp hp
      refine List.Pairwise.cons ?_ (ih hrest)
      intro b hb
      have hb' : b = p ∨ b ∈ rest := by
        have hm := (insPair_perm p rest).mem_iff.mp hb
        rwa [List.mem_cons] at hm
      rcases hb' with hb' | hb'
      · rw [hb']
        exact hge
      · exact hq b hb'

theorem sortPairs_pairwise : ∀ (l : List (Json × List Json)),
    (sortPairs l).Pairwise (fun a b => keyStr a.1 ≤ keyStr b.1) := by
  intro l
  induction l with
  | nil => simp [sortPairs]
  | cons p rest ih =>
    rw [sortPairs]
    exact insPair_pairwise p (sortPairs rest) ih

/-- C5: the grouping maps every category to the resources carrying it in
their original input order (stable grouping, stated as a filter
equation), its keys appear in strictly ascending lexicographic order
whatever the input order was, a category appears as a key exactly when
some resource carries it, and an empty resource list yields an empty
mapping. -/
theorem grouping_sorted_stable (result : Json)
    (hstr : ∀ r ∈ resourcesOf result, ∃ s, categoryOf r = Json.str s) :
    (resourcesOf result = [] → get_resources_by_category result = []) ∧
    (get_resources_by_category result).Pairwise
      (fun p q => keyStr p.1 < keyStr q.1) ∧
    (∀ k b, lookupBucket (get_resources_by_category result) k = some b →
      b = (resourcesOf result).filter (fun r => categoryOf r == k)) ∧
    (∀ k, (lookupBucket (get_resources_by_category result) k).isSome ↔
      k ∈ (resourcesOf result).map categoryOf) := by
  have hkeymem : ∀ k, k ∈ (get_resources_by_category result).map Prod.fst →
      k ∈ (resourcesOf result).map categoryOf := by
    intro k hk
    have hperm : ((sortPairs (groupAux [] (resourcesOf result))).map Prod.fst).Perm
        ((groupAux [] (resourcesOf result)).map Prod.fst) :=
      (sortPairs_perm (groupAux [] (resourcesOf result))).map Prod.fst
    have hk2 : k ∈ (groupAux [] (resourcesOf result)).map Prod.fst :=
      hperm.mem_iff.mp hk
    rw [groupAux_fst] at hk2
    simp only [List.map_nil] at hk2
    rw [mem_foldl_insert] at hk2
    rcases hk2 with hk2 | hk2
    · exact absurd hk2 (List.not_mem_nil k)
    · exact hk2
  refine ⟨?_, ?_, ?_, ?_⟩
  · intro h
    show sortPairs (groupAux [] (resourcesOf result)) = []
    rw [h]
    rfl
  · have hle := sortPairs_pairwise (groupAux [] (resourcesOf result))
    have hn : ((sortPairs (groupAux [] (resourcesOf result))).map Prod.fst).Nodup :=
      (((sortPairs_perm (groupAux [] (resourcesOf result))).map
        Prod.fst).nodup_iff).mpr (groupAux_nodup_fst (resourcesOf result))
    have hne : (sortPairs (groupAux [] (resourcesOf result))).Pairwise
        (fun p q => p.1 ≠ q.1) := (List.pairwise_map).mp hn
    have hand := hle.and hne
    refine hand.imp_of_mem ?_
    intro a b ha hb hab
    have hsa : ∃ s, a.1 = Json.str s := by
      obtain ⟨r, hr, hk⟩ := List.mem_map.mp
        (hkeymem a.1 (List.mem_map_of_mem Prod.fst ha))
      obtain ⟨s, hs⟩ := hstr r hr
      exact ⟨s, by rw [← hk, hs]⟩
    have hsb : ∃ s, b.1 = Json.str s := by
      obtain ⟨r, hr, hk⟩ := List.mem_map.mp
        (hkeymem b.1 (List.mem_map_of_mem Prod.fst hb))
      obtain ⟨s, hs⟩ := hstr r hr
      exact ⟨s, by rw [← hk, hs]⟩
    obtain ⟨sa, hsa⟩ := hsa
    obtain ⟨sb, hsb⟩ := hsb
    have hne2 : keyStr a.1 ≠ keyStr b.1 := by
      intro he
      apply hab.2
      rw [hsa, hsb] at he ⊢
      simp only [keyStr] at he
      rw [he]
    exact lt_of_le_of_ne hab.1 hne2
  · intro k b h
    rw [lookupBucket_grouping] at h
    by_cases hc : (resourcesOf result).filter (fun r => categoryOf r == k) = []
    · rw [if_pos hc] at h
      exact absurd h (by simp)
    · rw [if_neg hc] at h
      exact (Option.some.inj h).symm
  · intro k
    rw [lookupBucket_grouping]
    by_cases hc : (resourcesOf result).filter (fun r => categoryOf r == k) = []
    · rw [if_pos hc]
      simp only [Option.isSome_none, Bool.false_eq_true, false_iff]
      intro hm
      obtain ⟨r, hr, hk⟩ := List.mem_map.mp hm
      have hrf : r ∈ (resourcesOf result).filter (fun x => categoryOf x == k) := by
        rw [List.mem_filter]
        exact ⟨hr, by rw [beq_iff_eq]; exact hk⟩
      rw [hc] at hrf
      exact absurd hrf (List.not_mem_nil r)
    · rw [if_neg hc]
      simp only [Option.isSome_some, true_iff]
      obtain ⟨x, hx⟩ := List.exists_mem_of_ne_nil _ hc
      rw [List.mem_filter] at hx
      rw [List.mem_map]
      exact ⟨x, hx.1, by rw [← beq_iff_eq]; exact hx.2⟩

theorem grouping_sorted_stable_witness :
    (get_resources_by_category (.obj [("resources", .arr
        [.obj [("category", .str "Storage")],
         .obj [("category", .str "Compute")]])])).Pairwise
      (fun p q => keyStr p.1 < keyStr q.1) ∧
    (get_resources_by_category (.obj [("resources", .arr
        [.obj [("category", .str "Storage")],
         .obj [("category", .str "Compute")]])])).map Prod.fst =
      [.str "Compute", .str "Storage"] := by
  have h := grouping_sorted_stable (.obj [("resources", .arr
      [.obj [("category", .str "Storage")],
       .obj [("category", .str "Compute")]])]) (by
    intro r hr
    have hr' : r ∈ [Json.obj [("category", Json.str "Storage")],
        Json.obj [("category", Json.str "Compute")]] := hr
    rcases List.mem_cons.mp hr' with h1 | h1
    · exact ⟨"Storage", by rw [h1]; rfl⟩
    · rcases List.mem_cons.mp h1 with h2 | h2
      · exact ⟨"Compute", by rw [h2]; rfl⟩
      · exact absurd h2 (List.not_mem_nil r))
  refine ⟨h.2.1, ?_⟩
  rfl

theorem fence_json_data : "```json".data = fenceJson := rfl

theorem fence_ticks_data : "```".data = fenceTicks := rfl

theorem ws_ne_tick {c : Char} (h : isPySpace c = true) : c ≠ '`' := by
  intro he
  rw [he] at h
  exact absurd h (by decide)

theorem dropLit_append : ∀ (lit rest : List Char), dropLit (lit ++ rest) lit = some rest := by
  intro lit
  induction lit with
  | nil =>
    intro rest
    rw [List.nil_append]
    cases rest <;> rfl
  | cons c cs ih =>
    intro rest
    simp only [List.cons_append, dropLit, if_pos rfl]
    exact ih rest

theorem dropLit_append_common : ∀ (pre a b : List Char),
    dropLit (pre ++ a) (pre ++ b) = dropLit a b := by
  intro pre
  induction pre with
  | nil => intro a b; rfl
  | cons c cs ih =>
    intro a b
    simp only [List.cons_append, dropLit, if_pos rfl]
    exact ih a b

theorem dropWhile_append_all {p : Char → Bool} :
    ∀ (l1 l2 : List Char), (∀ c ∈ l1, p c = true) →
      List.dropWhile p (l1 ++ l2) = List.dropWhile p l2 := by
  intro l1
  induction l1 with
  | nil => intro l2 _; rfl
  | cons c cs ih =>
    intro l2 h
    rw [List.cons_append, List.dropWhile_cons, if_pos (h c (List.mem_cons_self c cs))]
    exact ih l2 (fun x hx => h x (List.mem_cons_of_mem c hx))

theorem dropWhile_cons_false {p : Char → Bool} {c : Char} (l : List Char)
    (h : p c = false) : List.dropWhile p (c :: l) = c :: l := by
  rw [List.dropWhile_cons, if_neg (by simp [h])]

theorem dropWhile_head_props {p : Char → Bool} :
    ∀ (l : List Char) (d : Char) (ds : List Char),
      List.dropWhile p l = d :: ds → d ∈ l ∧ p d = false := by
  intro l
  induction l with
  | nil => intro d ds h; exact absurd h (by simp)
  | cons c cs ih =>
    intro d ds h
    rw [List.dropWhile_cons] at h
    by_cases hp : p c = true
    · rw [if_pos hp] at h
      obtain ⟨hm, hf⟩ := ih d ds h
      exact ⟨List.mem_cons_of_mem c hm, hf⟩
    · rw [if_neg hp] at h
      have hd : c = d := (List.cons.injEq c cs d ds ▸ h).1
      refine ⟨by rw [← hd]; exact List.mem_cons_self c cs, ?_⟩
      rw [← hd]
      exact Bool.eq_false_iff.mpr hp

theorem mem_of_getLast? : ∀ (l : List Char) (d : Char), l.getLast? = some d → d ∈ l := by
  intro l
  induction l with
  | nil => intro d h; exact absurd h (by simp)
  | cons c cs ih =>
    intro d h
    cases cs with
    | nil =>
      simp only [List.getLast?_singleton, Option.some.injEq] at h
      rw [← h]
      exact List.mem_cons_self c []
    | cons e es =>
      rw [List.getLast?_cons_cons] at h
      exact List.mem_cons_of_mem c (ih d h)

theorem dropWhile_append_keep :
    ∀ (l1 l2 : List Char), (∃ d, d ∈ l1 ∧ isPySpace d = false) →
      List.dropWhile isPySpace (l1 ++ l2) = List.dropWhile isPySpace l1 ++ l2 := by
  intro l1
  induction l1 with
  | nil =>
    intro l2 h
    obtain ⟨d, hd, _⟩ := h
    exact absurd hd (List.not_mem_nil d)
  | cons c cs ih =>
    intro l2 h
    rw [List.cons_append, List.dropWhile_cons, List.dropWhile_cons]
    by_cases hp : isPySpace c = true
    · rw [if_pos hp, if_pos hp]
      obtain ⟨d, hd, hdf⟩ := h
      rcases List.mem_cons.mp hd with hd | hd
      · rw [hd, hp] at hdf
        exact absurd hdf (by simp)
      · exact ih l2 ⟨d, hd, hdf⟩
    · rw [if_neg hp, if_neg hp]
      rfl

theorem fenceMatch_json_open (rest : List Char) :
    fenceMatch (fenceJson ++ rest) = some (rest.dropWhile isPySpace) := by
  unfold fenceMatch
  rw [dropLit_append]

theorem fenceMatch_none (cs : List Char)
    (h1 : cs.head? ≠ some '`')
    (h2 : (cs.dropWhile isPySpace).head? ≠ some '`') :
    fenceMatch cs = none := by
  unfold fenceMatch
  have e1 : dropLit cs fenceJson = none := by
    cases cs with
    | nil => rfl
    | cons c cs' =>
      have hc : c ≠ '`' := by
        simp only [List.head?_cons, ne_eq, Option.some.injEq] at h1
        exact h1
      rw [fenceJson]
      simp only [dropLit]
      rw [if_neg hc]
  rw [e1]
  have e2 : dropLit (cs.dropWhile isPySpace) fenceTicks = none := by
    cases hd : cs.dropWhile isPySpace with
    | nil => rfl
    | cons c cs' =>
      have hc : c ≠ '`' := by
        rw [hd] at h2
        simp only [List.head?_cons, ne_eq, Option.some.injEq] at h2
        exact h2
      rw [fenceTicks]
      simp only [dropLit]
      rw [if_neg hc]
  rw [e2]

theorem fenceMatch_ws_ticks (ws1 ws2 : List Char)
    (h1 : ∀ c ∈ ws1, isPySpace c = true) (h2 : ∀ c ∈ ws2, isPySpace c = true) :
    fenceMatch (ws1 ++ (fenceTicks ++ ws2)) = some ws2 := by
  unfold fenceMatch
  have e1 : dropLit (ws1 ++ (fenceTicks ++ ws2)) fenceJson = none := by
    cases ws1 with
    | nil =>
      rw [List.nil_append]
      have hsplit : fenceJson = fenceTicks ++ ['j', 's', 'o', 'n'] := rfl
      rw [hsplit, dropLit_append_common]
      cases ws2 with
      | nil => rfl
      | cons d ds =>
        have hd : d ≠ 'j' := by
          intro he
          have := h2 d (List.mem_cons_self d ds)
          rw [he] at this
          exact absurd this (by decide)
        simp only [dropLit]
        rw [if_neg hd]
    | cons c cs =>
      have hc : c ≠ '`' := ws_ne_tick (h1 c (List.mem_cons_self c cs))
      rw [List.cons_append, fenceJson]
      simp only [dropLit]
      rw [if_neg hc]
  rw [e1]
  have e2 : (ws1 ++ (fenceTicks ++ ws2)).dropWhile isPySpace = fenceTicks ++ ws2 := by
    rw [dropWhile_append_all ws1 _ h1]
    rw [fenceTicks, List.cons_append]
    exact dropWhile_cons_false _ (by decide)
  rw [e2, dropLit_append]

theorem subFencesAux_succ_some (f : Nat) (l rest : List Char) (hne : l ≠ [])
    (h : fenceMatch l = some rest) :
    subFencesAux (f + 1) l = subFencesAux f rest := by
  cases l with
  | nil => exact absurd rfl hne
  | cons c cs => simp [subFencesAux, h]

theorem subFencesAux_cons_none (f : Nat) (c : Char) (cs : List Char)
    (h : fenceMatch (c :: cs) = none) :
    subFencesAux (f + 1) (c :: cs) = c :: subFencesAux f cs := by
  simp [subFencesAux, h]

theorem subFencesAux_no_tick : ∀ (l : List Char) (fuel : Nat),
    (∀ c ∈ l, c ≠ '`') → subFencesAux fuel l = l := by
  intro l
  induction l with
  | nil => intro fuel _; cases fuel <;> rfl
  | cons c cs ih =>
    intro fuel h
    cases fuel with
    | zero => rfl
    | succ f =>
      have hm : fenceMatch (c :: cs) = none := by
        apply fenceMatch_none
        · simp only [List.head?_cons, ne_eq, Option.some.injEq]
          exact h c (List.mem_cons_self c cs)
        · cases hd : (c :: cs).dropWhile isPySpace with
          | nil => simp
          | cons d ds =>
            obtain ⟨hdm, _⟩ := dropWhile_head_props (c :: cs) d ds hd
            simp only [List.head?_cons, ne_eq, Option.some.injEq]
            exact h d hdm
      rw [subFencesAux_cons_none f c cs hm]
      exact congrArg (c :: ·) (ih f (fun x hx => h x (List.mem_cons_of_mem c hx)))

theorem subFencesAux_core : ∀ (core : List Char) (fuel : Nat) (wsR ws2 : List Char),
    (∀ c ∈ core, c ≠ '`') →
    (core = [] ∨ ∃ d, core.getLast? = some d ∧ isPySpace d = false) →
    (∀ c ∈ wsR, isPySpace c = true) →
    (∀ c ∈ ws2, isPySpace c = true) →
    core.length < fuel →
    subFencesAux fuel (core ++ (wsR ++ (fenceTicks ++ ws2))) = core ++ ws2 := by
  intro core
  induction core with
  | nil =>
    intro fuel wsR ws2 _ _ hR h2 hf
    cases fuel with
    | zero => exact absurd hf (Nat.not_lt_zero _)
    | succ f =>
      rw [List.nil_append, List.nil_append]
      have hne : wsR ++ (fenceTicks ++ ws2) ≠ [] := by
        intro h
        have hlen := congrArg List.length h
        simp [fenceTicks] at hlen
      rw [subFencesAux_succ_some f _ ws2 hne (fenceMatch_ws_ticks wsR ws2 hR h2)]
      exact subFencesAux_no_tick ws2 f (fun c hc => ws_ne_tick (h2 c hc))
  | cons c core' ih =>
    intro fuel wsR ws2 hnb hend hR h2 hf
    cases fuel with
    | zero => exact absurd hf (Nat.not_lt_zero _)
    | succ f =>
      have hcore' : core' = [] ∨ ∃ d, core'.getLast? = some d ∧ isPySpace d = false := by
        cases core' with
        | nil => exact Or.inl rfl
        | cons e es =>
          rcases hend with hend | ⟨d, hd, hdf⟩
          · exact absurd hend (by simp)
          · rw [List.getLast?_cons_cons] at hd
            exact Or.inr ⟨d, hd, hdf⟩
      have hm : fenceMatch (c :: (core' ++ (wsR ++ (fenceTicks ++ ws2)))) = none := by
        apply fenceMatch_none
        · simp only [List.head?_cons, ne_eq, Option.some.injEq]
          exact hnb c (List.mem_cons_self c core')
        · by_cases hc : isPySpace c = true
          · have hdex : ∃ d, d ∈ core' ∧ isPySpace d = false := by
              rcases hend with hend | ⟨d, hd, hdf⟩
              · exact absurd hend (by simp)
              · cases core' with
                | nil =>
                  simp only [List.getLast?_singleton, Option.some.injEq] at hd
                  rw [hd] at hc
                  rw [hc] at hdf
                  exact absurd hdf (by simp)
                | cons e es =>
                  rw [List.getLast?_cons_cons] at hd
                  exact ⟨d, mem_of_getLast? (e :: es) d hd, hdf⟩
            rw [List.dropWhile_cons, if_pos hc, dropWhile_append_keep core' _ hdex]
            cases hdw : List.dropWhile isPySpace core' with
            | nil =>
              rw [List.dropWhile_eq_nil_iff] at hdw
              obtain ⟨d, hdm, hdf⟩ := hdex
              have hdt := hdw d hdm
              rw [hdt] at hdf
              exact absurd hdf (by simp)
            | cons d ds =>
              obtain ⟨hdm, _⟩ := dropWhile_head_props core' d ds hdw
              rw [List.cons_append]
              simp only [List.head?_cons, ne_eq, Option.some.injEq]
              exact hnb d (List.mem_cons_of_mem c hdm)
          · rw [dropWhile_cons_false _ (Bool.eq_false_iff.mpr hc)]
            simp only [List.head?_cons, ne_eq, Option.some.injEq]
            exact hnb c (List.mem_cons_self c core')
      rw [List.cons_append, subFencesAux_cons_none f _ _ hm, List.cons_append]
      refine congrArg (c :: ·) ?_
      refine ih f wsR ws2 (fun x hx => hnb x (List.mem_cons_of_mem c hx)) hcore' hR h2 ?_
      simp only [List.length_cons] at hf
      omega

theorem pyStrip_allws (l : List Char) (h : ∀ c ∈ l, isPySpace c = true) :
    pyStrip l = [] := by
  unfold pyStrip
  rw [List.dropWhile_eq_nil_iff.mpr (fun x hx => h x hx)]
  rfl

theorem mem_of_mem_dropWhile {p : Char → Bool} : ∀ (l : List Char) (x : Char),
    x ∈ List.dropWhile p l → x ∈ l := by
  intro l
  induction l with
  | nil =>
    intro x h
    simp at h
  | cons c cs ih =>
    intro x h
    rw [List.dropWhile_cons] at h
    by_cases hp : p c = true
    · rw [if_pos hp] at h
      exact List.mem_cons_of_mem c (ih x h)
    · rw [if_neg hp] at h
      exact h

theorem subFencesAux_wrapped (fuel : Nat) (ws1 td ws2 ws3 : List Char)
    (ht : ∀ c ∈ td, c ≠ '`')
    (h1 : ∀ c ∈ ws1, isPySpace c = true)
    (h2 : ∀ c ∈ ws2, isPySpace c = true)
    (h3 : ∀ c ∈ ws3, isPySpace c = true)
    (hf : td.length < fuel) :
    subFencesAux (fuel + 1) (fenceJson ++ (ws1 ++ (td ++ (ws2 ++ (fenceTicks ++ ws3))))) =
      pyStrip td ++ ws3 := by
  rw [subFencesAux_succ_some fuel _ _ (by simp [fenceJson]) (fenceMatch_json_open _)]
  by_cases hmid0 : td.dropWhile isPySpace = []
  · have htdws : ∀ c ∈ td, isPySpace c = true :=
      fun x hx => List.dropWhile_eq_nil_iff.mp hmid0 x hx
    have hdrop : (ws1 ++ (td ++ (ws2 ++ (fenceTicks ++ ws3)))).dropWhile isPySpace =
        fenceTicks ++ ws3 := by
      rw [dropWhile_append_all ws1 _ h1, dropWhile_append_all td _ htdws,
        dropWhile_append_all ws2 _ h2, fenceTicks, List.cons_append]
      exact dropWhile_cons_false _ (by decide)
    rw [hdrop, pyStrip_allws td htdws, List.nil_append]
    have hcore := subFencesAux_core [] fuel [] ws3 (by simp) (Or.inl rfl)
      (by simp) h3 (by simp only [List.length_nil]; omega)
    simpa using hcore
  · obtain ⟨m0, mid', hmid_eq⟩ : ∃ m0 mid', td.dropWhile isPySpace = m0 :: mid' := by
      cases h : td.dropWhile isPySpace with
      | nil => exact absurd h hmid0
      | cons a b => exact ⟨a, b, rfl⟩
    obtain ⟨hm0mem, hm0ws⟩ := dropWhile_head_props td m0 mid' hmid_eq
    unfold pyStrip
    set mid := td.dropWhile isPySpace with hmid_def
    set core := (mid.reverse.dropWhile isPySpace).reverse with hcore_def
    set tws := (mid.reverse.takeWhile isPySpace).reverse with htws_def
    have hsplit : mid = core ++ tws := by
      rw [hcore_def, htws_def, ← List.reverse_append, List.takeWhile_append_dropWhile,
        List.reverse_reverse]
    have htws_ws : ∀ c ∈ tws, isPySpace c = true := by
      intro c hc
      rw [htws_def] at hc
      exact List.mem_takeWhile_imp (List.mem_reverse.mp hc)
    have hcore_nb : ∀ c ∈ core, c ≠ '`' := by
      intro c hc
      rw [hcore_def] at hc
      have ha := mem_of_mem_dropWhile _ c (List.mem_reverse.mp hc)
      have hb : c ∈ mid := List.mem_reverse.mp ha
      rw [hmid_def] at hb
      exact ht c (mem_of_mem_dropWhile td c hb)
    have hcore_end : core = [] ∨ ∃ d, core.getLast? = some d ∧ isPySpace d = false := by
      cases hdw : mid.reverse.dropWhile isPySpace with
      | nil =>
        left
        rw [hcore_def, hdw]
        rfl
      | cons d ds =>
        right
        refine ⟨d, ?_, (dropWhile_head_props mid.reverse d ds hdw).2⟩
        rw [hcore_def, hdw, List.getLast?_reverse]
        rfl
    have hlen_core : core.length ≤ td.length := by
      rw [hcore_def]
      calc ((mid.reverse.dropWhile isPySpace).reverse).length
          = (mid.reverse.dropWhile isPySpace).length := List.length_reverse _
        _ ≤ mid.reverse.length := (List.dropWhile_sublist _).length_le
        _ = mid.length := List.length_reverse _
        _ ≤ td.length := by
            rw [hmid_def]
            exact (List.dropWhile_sublist _).length_le
    have hdrop : (ws1 ++ (td ++ (ws2 ++ (fenceTicks ++ ws3)))).dropWhile isPySpace =
        mid ++ (ws2 ++ (fenceTicks ++ ws3)) := by
      rw [dropWhile_append_all ws1 _ h1, dropWhile_append_keep td _ ⟨m0, hm0mem, hm0ws⟩,
        ← hmid_def]
    rw [hdrop]
    have hassoc : mid ++ (ws2 ++ (fenceTicks ++ ws3)) =
        core ++ ((tws ++ ws2) ++ (fenceTicks ++ ws3)) := by
      rw [hsplit]
      simp [List.append_assoc]
    rw [hassoc]
    exact subFencesAux_core core fuel (tws ++ ws2) ws3 hcore_nb hcore_end
      (fun c hc => (List.mem_append.mp hc).elim (htws_ws c) (h2 c)) h3
      (by omega)

theorem getLast?_dropWhile {p : Char → Bool} : ∀ (m : List Char),
    List.dropWhile p m ≠ [] → (List.dropWhile p m).getLast? = m.getLast? := by
  intro m
  induction m with
  | nil => intro h; exact absurd rfl h
  | cons c cs ih =>
    intro h
    rw [List.dropWhile_cons] at h ⊢
    by_cases hp : p c = true
    · rw [if_pos hp] at h ⊢
      have hcs : cs ≠ [] := by
        intro he
        rw [he] at h
        exact h rfl
      rw [ih h]
      cases cs with
      | nil => exact absurd rfl hcs
      | cons e es => rw [List.getLast?_cons_cons]
    · rw [if_neg hp] at h ⊢

theorem pyStrip_head (l : List Char) (d : Char) (h : (pyStrip l).head? = some d) :
    isPySpace d = false := by
  unfold pyStrip at h
  have e : (List.dropWhile isPySpace (l.dropWhile isPySpace).reverse).getLast? = some d := by
    have h2 := List.getLast?_reverse
      (List.dropWhile isPySpace (l.dropWhile isPySpace).reverse).reverse
    rw [List.reverse_reverse] at h2
    rw [h2]
    exact h
  have hne : List.dropWhile isPySpace (l.dropWhile isPySpace).reverse ≠ [] := by
    intro he
    rw [he] at e
    simp at e
  rw [getLast?_dropWhile _ hne, List.getLast?_reverse] at e
  cases hd : l.dropWhile isPySpace with
  | nil =>
    rw [hd] at e
    simp at e
  | cons a b =>
    rw [hd] at e
    simp only [List.head?_cons, Option.some.injEq] at e
    rw [← e]
    exact (dropWhile_head_props l a b hd).2

theorem pyStrip_getLast (l : List Char) (d : Char) (h : (pyStrip l).getLast? = some d) :
    isPySpace d = false := by
  unfold pyStrip at h
  rw [List.getLast?_reverse] at h
  cases hd : List.dropWhile isPySpace (l.dropWhile isPySpace).reverse with
  | nil =>
    rw [hd] at h
    simp at h
  | cons a b =>
    rw [hd] at h
    simp only [List.head?_cons, Option.some.injEq] at h
    rw [← h]
    exact (dropWhile_head_props _ a b hd).2

theorem pyStrip_append_ws (m ws : List Char)
    (hh : ∀ d, m.head? = some d → isPySpace d = false)
    (hl : ∀ d, m.getLast? = some d → isPySpace d = false)
    (hws : ∀ c ∈ ws, isPySpace c = true) :
    pyStrip (m ++ ws) = m := by
  cases m with
  | nil =>
    rw [List.nil_append]
    exact pyStrip_allws ws hws
  | cons c m' =>
    have hc : isPySpace c = false := hh c rfl
    unfold pyStrip
    rw [List.cons_append, dropWhile_cons_false _ hc, ← List.cons_append,
      List.reverse_append,
      dropWhile_append_all _ _ (fun x hx => hws x (List.mem_reverse.mp hx))]
    cases hrev : (c :: m').reverse with
    | nil => exact absurd (congrArg List.length hrev) (by simp)
    | cons d ds =>
      have hd : (c :: m').getLast? = some d := by
        have h2 := List.getLast?_reverse (c :: m').reverse
        rw [List.reverse_reverse] at h2
        rw [h2, hrev]
        rfl
      rw [dropWhile_cons_false _ (hl d hd), ← hrev, List.reverse_reverse]

theorem pyStrip_idem_ws (l ws : List Char) (hws : ∀ c ∈ ws, isPySpace c = true) :
    pyStrip (pyStrip l ++ ws) = pyStrip l :=
  pyStrip_append_ws (pyStrip l) ws (pyStrip_head l) (pyStrip_getLast l) hws

theorem cleanedText_wrapped (t wsA wsB wsC : String)
    (ht : ∀ c ∈ t.data, c ≠ '`')
    (hA : ∀ c ∈ wsA.data, isPySpace c = true)
    (hB : ∀ c ∈ wsB.data, isPySpace c = true)
    (hC : ∀ c ∈ wsC.data, isPySpace c = true) :
    cleanedText ("```json" ++ wsA ++ t ++ wsB ++ "```" ++ wsC) = cleanedText t := by
  unfold cleanedText
  refine congrArg String.mk ?_
  have hdata : ("```json" ++ wsA ++ t ++ wsB ++ "```" ++ wsC).data =
      fenceJson ++ (wsA.data ++ (t.data ++ (wsB.data ++ (fenceTicks ++ wsC.data)))) := by
    simp only [String.data_append, List.append_assoc, fence_json_data, fence_ticks_data]
    rfl
  rw [hdata]
  simp only [subFences]
  have hlen : (fenceJson ++ (wsA.data ++ (t.data ++ (wsB.data ++
      (fenceTicks ++ wsC.data))))).length =
      (wsA.data.length + (t.data.length + (wsB.data.length + (3 + wsC.data.length))) + 6) + 1 := by
    simp [List.length_append, fenceJson, fenceTicks]
    omega
  rw [hlen]
  rw [subFencesAux_wrapped _ wsA.data t.data wsB.data wsC.data ht hA hB hC (by omega)]
  rw [subFencesAux_no_tick t.data t.data.length ht]
  exact pyStrip_idem_ws t.data wsC.data hC

/-- C4, counterexample: wrapping valid JSON in a fence with whitespace
before the opening marker changes the result of the normalizer.  On
` ```json\n{}\n``` ` the second regex alternative consumes only the
leading space and the three backticks, the tag text `json` survives into
the cleaned text, and parsing fails, while the unwrapped `{}` normalizes
fine; so the claim does not extend to optional whitespace before the
opening fence. -/
theorem fence_leading_ws_counterexample :
    parse_response "\x7b\x7d" = .ok (.obj [("resources", .arr []),
      ("architecture_pattern", .str "Not identified"),
      ("summary", .str "No summary available"),
      ("confidence", .str "medium")]) ∧
    cleanedText " ```json\n\x7b\x7d\n```" = "json\n\x7b\x7d" ∧
    parse_response " ```json\n\x7b\x7d\n```" = .error (.parseError "Expecting value") ∧
    parse_response " ```json\n\x7b\x7d\n```" ≠ parse_response "\x7b\x7d" := by
  refine ⟨rfl, rfl, rfl, ?_⟩
  intro h
  rw [(rfl : parse_response " ```json\n\x7b\x7d\n```" =
        .error (.parseError "Expecting value")),
      (rfl : parse_response "\x7b\x7d" = .ok (.obj [("resources", .arr []),
        ("architecture_pattern", .str "Not identified"),
        ("summary", .str "No summary available"),
        ("confidence", .str "medium")]))] at h
  exact Except.noConfusion h

/-- C4, amended: for every backtick-free text t, normalizing t wrapped
in a `json`-tagged fence equals normalizing t unwrapped, with arbitrary
whitespace after the opening marker, between t and the closing fence,
and after the closing fence; whitespace before the opening marker is
excluded, since there the stripping leaves the tag text behind (see the
counterexample). -/
theorem fence_strip_amended (t wsA wsB wsC : String)
    (ht : ∀ c ∈ t.data, c ≠ '`')
    (hA : ∀ c ∈ wsA.data, isPySpace c = true)
    (hB : ∀ c ∈ wsB.data, isPySpace c = true)
    (hC : ∀ c ∈ wsC.data, isPySpace c = true) :
    parse_response ("```json" ++ wsA ++ t ++ wsB ++ "```" ++ wsC) = parse_response t := by
  unfold parse_response
  rw [cleanedText_wrapped t wsA wsB wsC ht hA hB hC]

theorem fence_strip_amended_witness :
    parse_response ("```json" ++ "\n" ++ "\x7b\"confidence\": \"low\"\x7d" ++ "\n" ++ "```" ++ "") =
      parse_response "\x7b\"confidence\": \"low\"\x7d" :=
  fence_strip_amended "\x7b\"confidence\": \"low\"\x7d" "\n" "\n" ""
    (by decide) (by decide) (by decide) (by decide)
